import Mathlib

/-!
Verification of the maze solver (`maze.py`).

The program is embedded shallowly: text is a `List Char`, grid coordinates
are `Nat × Nat`, Python exceptions become `Except` error values, and the
unbounded `while True` search loop becomes a fuel-indexed recursion
(`Maze.solveLoop`) whose fuel `height * width + 1` is proved sufficient.
-/

namespace Laberinto

/-- The four cardinal actions of the maze ("up", "down", "left", "right"). -/
inductive Action where
  | up
  | down
  | left
  | right
deriving DecidableEq, Repr

/-- Python class `Node` from `maze.py`: a state, an optional parent node and the optional
action taken to reach it (both `None` exactly for the root in practice). -/
inductive Node where
  | mk : (Nat × Nat) → Option Node → Option Action → Node

/-- The `state` field of a node. -/
def Node.state : Node → Nat × Nat
  | .mk s _ _ => s

/-- The `parent` field of a node. -/
def Node.parent : Node → Option Node
  | .mk _ p _ => p

/-- The `action` field of a node. -/
def Node.action : Node → Option Action
  | .mk _ _ a => a

/-- The exceptions raised by the search code: `"empty frontier"` raised by
`remove` on an empty frontier, and `"no solution"` raised by the search loop
when the frontier runs dry. -/
inductive SearchError where
  | emptyFrontier
  | noSolution
deriving DecidableEq, Repr

/-- Python class `StackFrontier` from `maze.py`: a list of nodes, appended on `add`,
popped from the end on `remove`. -/
structure StackFrontier where
  frontier : List Node

/-- Method `StackFrontier.add`: `self.frontier.append(node)`. -/
def StackFrontier.add (f : StackFrontier) (node : Node) : StackFrontier :=
  ⟨f.frontier ++ [node]⟩

/-- Method `StackFrontier.contains_state`: `any(node.state == state for node in self.frontier)`. -/
def StackFrontier.contains_state (f : StackFrontier) (state : Nat × Nat) : Bool :=
  f.frontier.any (fun node => node.state == state)

/-- Method `StackFrontier.empty`: `len(self.frontier) == 0`. -/
def StackFrontier.empty (f : StackFrontier) : Bool :=
  f.frontier.length == 0

/-- Method `StackFrontier.remove`: raises `"empty frontier"` on an empty frontier,
otherwise pops and returns the last node (`self.frontier.pop()`).
`getLast?` is `none` exactly when the frontier is empty. -/
def StackFrontier.remove (f : StackFrontier) : Except SearchError (Node × StackFrontier) :=
  match f.frontier.getLast? with
  | none => .error .emptyFrontier
  | some node => .ok (node, ⟨f.frontier.dropLast⟩)

/-- Python class `QueueFrontier` subclasses `StackFrontier`, overriding only `remove`. -/
abbrev QueueFrontier := StackFrontier

/-- Method `QueueFrontier.remove`: raises `"empty frontier"` on an empty frontier,
otherwise pops and returns the first node (`self.frontier.pop(0)`). -/
def QueueFrontier.remove (f : QueueFrontier) : Except SearchError (Node × StackFrontier) :=
  match f.frontier with
  | [] => .error .emptyFrontier
  | node :: rest => .ok (node, ⟨rest⟩)

/-- The coordinate delta of each action, in the order used by
`Maze.neighbors`: up `(-1,0)`, down `(1,0)`, left `(0,-1)`, right `(0,1)`. -/
def delta : Action → Int × Int
  | .up => (-1, 0)
  | .down => (1, 0)
  | .left => (0, -1)
  | .right => (0, 1)

/-- The `Maze` object: static fields `height`, `width`, `walls`, `start`,
`goal` set by `__init__`, and the mutable per-run fields `solution`,
`num_explored`, `explored` written by `solve`. -/
structure Maze where
  height : Nat
  width : Nat
  walls : List (List Bool)
  start : Nat × Nat
  goal : Nat × Nat
  solution : Option (List (Option Action) × List (Nat × Nat))
  num_explored : Nat
  explored : List (Nat × Nat)
deriving DecidableEq, Repr

/-- Reads `self.walls[r][c]` (only consulted under in-bounds guards). -/
def wallAt (m : Maze) (r c : Nat) : Bool :=
  (m.walls.getD r []).getD c false

/-- Method `Maze.neighbors`: builds the four candidates in the fixed order up, down,
left, right, then keeps those whose target is in bounds and not a wall,
appending in order. Candidate coordinates are `Int` (Python ints can go
negative); kept targets are nonnegative so they convert back to `Nat`. -/
def Maze.neighbors (m : Maze) (state : Nat × Nat) : List (Action × (Nat × Nat)) :=
  let row := state.1
  let col := state.2
  let candidates : List (Action × (Int × Int)) :=
    [(.up, ((row : Int) - 1, (col : Int))),
     (.down, ((row : Int) + 1, (col : Int))),
     (.left, ((row : Int), (col : Int) - 1)),
     (.right, ((row : Int), (col : Int) + 1))]
  candidates.foldl
    (fun result p =>
      if (0 ≤ p.2.1 && p.2.1 < (m.height : Int) && 0 ≤ p.2.2 && p.2.2 < (m.width : Int)
            && !(wallAt m p.2.1.toNat p.2.2.toNat))
      then result ++ [(p.1, (p.2.1.toNat, p.2.2.toNat))]
      else result)
    []

/-- Models `self.explored.add(state)`: set insertion, a no-op when already present. -/
def setInsert (s : List (Nat × Nat)) (x : Nat × Nat) : List (Nat × Nat) :=
  if x ∈ s then s else x :: s

/-- The reconstruction loop of `solve`: `while node.parent is not None`,
collecting `node.action` and `node.state` walking up the parent chain
(child-first order; `solve` reverses afterwards). -/
def backtrack : Node → List (Option Action) × List (Nat × Nat)
  | .mk _ none _ => ([], [])
  | .mk s (some p) a =>
    let rest := backtrack p
    (a :: rest.1, s :: rest.2)

/-- The inner `for action, state in self.neighbors(node.state)` loop of
`solve`: each neighbor not in the frontier and not explored is added as a
child of `node`. -/
def addChildren (node : Node) (explored : List (Nat × Nat))
    (neighbors : List (Action × (Nat × Nat))) (frontier : StackFrontier) : StackFrontier :=
  neighbors.foldl
    (fun fr p =>
      if fr.contains_state p.2 = false ∧ p.2 ∉ explored
      then fr.add (.mk p.2 (some node) (some p.1))
      else fr)
    frontier

/-- The `while True` loop of `Maze.solve`, fuel-indexed. The loop state is
the frontier, the explored set and the explored counter; the result is the
final counter and set together with either the reconstructed solution or the
raised error. `none` means the fuel ran out (proved impossible below). -/
def Maze.solveLoop (m : Maze) :
    Nat → StackFrontier → List (Nat × Nat) → Nat →
    Option ((Nat × List (Nat × Nat)) ×
            Except SearchError (List (Option Action) × List (Nat × Nat)))
  | 0, _, _, _ => none
  | fuel + 1, frontier, explored, num_explored =>
    if frontier.empty then
      some ((num_explored, explored), .error .noSolution)
    else
      match frontier.remove with
      | .error e => some ((num_explored, explored), .error e)
      | .ok (node, frontier1) =>
        if node.state = m.goal then
          let pair := backtrack node
          some ((num_explored + 1, explored), .ok (pair.1.reverse, pair.2.reverse))
        else
          let explored1 := setInsert explored node.state
          let frontier2 := addChildren node explored1 (m.neighbors node.state) frontier1
          m.solveLoop fuel frontier2 explored1 (num_explored + 1)

/-- Method `Maze.solve`: resets the per-run state, seeds a fresh `StackFrontier`
with the root node, runs the loop, and writes the results back onto the
maze object. A `some e` second component is the exception `solve` raised;
the returned `Maze` is the object's state at that point (`solution` is
assigned only on the success path). -/
def Maze.solve (m : Maze) : Option (Maze × Option SearchError) :=
  let start : Node := .mk m.start none none
  let frontier : StackFrontier := StackFrontier.add ⟨[]⟩ start
  match m.solveLoop (m.height * m.width + 1) frontier [] 0 with
  | none => none
  | some ((ne, ex), .error e) =>
    some ({ m with num_explored := ne, explored := ex }, some e)
  | some ((ne, ex), .ok sol) =>
    some ({ m with num_explored := ne, explored := ex, solution := some sol }, none)

/-- The exceptions raised by `Maze.__init__` when the marker counts are off:
`"maze must have exactly one start point"` and
`"maze must have exactly one goal"`. -/
inductive MazeFormatError where
  | startCount
  | goalCount
deriving DecidableEq, Repr

/-- Helper for `splitlines`: accumulates the current line (reversed) while
scanning; a trailing newline does not open a final empty line, matching
Python `str.splitlines()` on newline-separated text. -/
def splitlinesAux (cur : List Char) : List Char → List (List Char)
  | [] => [cur.reverse]
  | '\n' :: [] => [cur.reverse]
  | '\n' :: rest => cur.reverse :: splitlinesAux [] rest
  | c :: rest => splitlinesAux (c :: cur) rest

/-- Models `contents.splitlines()` for newline-separated text (empty text gives no
lines). -/
def splitlines (s : List Char) : List (List Char) :=
  match s with
  | [] => []
  | _ => splitlinesAux [] s

/-- Reads `contents[i][j]` guarded by the `try/except IndexError` of `__init__`:
out-of-range reads yield a space, i.e. open floor (not `'A'`, `'B'` or `'#'`). -/
def charAt (lines : List (List Char)) (i j : Nat) : Char :=
  (lines.getD i []).getD j ' '

/-- All cells of a `height × width` grid in the row-major order of the
nested `for i in range(height): for j in range(width)` loops. -/
def allCells (height width : Nat) : List (Nat × Nat) :=
  (List.range height).flatMap (fun i => (List.range width).map (fun j => (i, j)))

/-- Constructor `Maze.__init__` on file contents: validates marker counts, splits into
lines, computes `height` and `width` (longest line), builds the wall matrix
(out-of-range reads are open floor) and records the positions of `'A'` and
`'B'`; the per-run fields start out as `solution = None`. -/
def mazeOfString (contents : List Char) : Except MazeFormatError Maze :=
  if contents.count 'A' ≠ 1 then .error .startCount
  else if contents.count 'B' ≠ 1 then .error .goalCount
  else
    let lines := splitlines contents
    let height := lines.length
    let width := lines.foldl (fun acc line => max acc line.length) 0
    let walls := (List.range height).map
      (fun i => (List.range width).map (fun j => charAt lines i j == '#'))
    let start := ((allCells height width).find? (fun p => charAt lines p.1 p.2 == 'A')).getD (0, 0)
    let goal := ((allCells height width).find? (fun p => charAt lines p.1 p.2 == 'B')).getD (0, 0)
    .ok ⟨height, width, walls, start, goal, none, 0, []⟩

/-! Specification-side vocabulary used to state the claims. -/

/-- Predicate `stepB a p s`: moving by the delta of `a` from cell `p` lands on cell
`s` (computed over `Int`, so edges of the grid are handled exactly). -/
def stepB (a : Action) (p s : Nat × Nat) : Bool :=
  ((s.1 : Int) == (p.1 : Int) + (delta a).1) && ((s.2 : Int) == (p.2 : Int) + (delta a).2)

/-- The candidate move of action `a` from `st`, kept iff the target is in
bounds and not a wall (the inclusion condition of the spec). -/
def validTarget (m : Maze) (st : Nat × Nat) (a : Action) : Option (Action × (Nat × Nat)) :=
  let r : Int := (st.1 : Int) + (delta a).1
  let c : Int := (st.2 : Int) + (delta a).2
  if 0 ≤ r ∧ r < (m.height : Int) ∧ 0 ≤ c ∧ c < (m.width : Int) ∧ wallAt m r.toNat c.toNat = false
  then some (a, (r.toNat, c.toNat))
  else none

/-- A list of (action, cell) pairs is a walk from `pos`: each cell is the
previous one shifted by the paired action's delta. -/
def walkOK : (Nat × Nat) → List (Option Action × (Nat × Nat)) → Bool
  | _, [] => true
  | pos, (some a, c) :: rest => stepB a pos c && walkOK c rest
  | _, (none, _) :: _ => false

/-- The goal is fully enclosed: every cell from which a single action would
step onto the goal is either out of bounds or a wall. -/
def enclosedB (m : Maze) : Bool :=
  [Action.up, .down, .left, .right].all
    (fun a =>
      let r : Int := (m.goal.1 : Int) - (delta a).1
      let c : Int := (m.goal.2 : Int) - (delta a).2
      if 0 ≤ r ∧ r < (m.height : Int) ∧ 0 ≤ c ∧ c < (m.width : Int)
      then wallAt m r.toNat c.toNat
      else true)

deriving instance DecidableEq for Except

/-! Concrete example mazes used to witness the claims on explicit inputs. -/

/-- The text `"AB\n#"`. -/
def csExample : List Char := ['A', 'B', '\n', '#']

/-- The maze parsed from `"AB\n#"`. -/
def mzExample : Maze := ⟨2, 2, [[false, false], [true, false]], (0, 0), (0, 1), none, 0, []⟩

/-- A 1×2 maze with the goal directly right of the start. -/
def mzAB : Maze := ⟨1, 2, [[false, false]], (0, 0), (0, 1), none, 0, []⟩

/-- Maze `mzAB` after its successful solve. -/
def mzABSolved : Maze :=
  ⟨1, 2, [[false, false]], (0, 0), (0, 1), some ([some .right], [(0, 1)]), 2, [(0, 0)]⟩

/-- A 1×3 maze whose goal is sealed off by a wall. -/
def mzBlocked : Maze := ⟨1, 3, [[false, true, false]], (0, 0), (0, 2), none, 0, []⟩

/-- Maze `mzBlocked` after its failed solve. -/
def mzBlockedAfter : Maze := ⟨1, 3, [[false, true, false]], (0, 0), (0, 2), none, 1, [(0, 0)]⟩

/-! Basic lemmas about the frontier operations. -/

theorem StackFrontier.frontier_add (f : StackFrontier) (n : Node) :
    (f.add n).frontier = f.frontier ++ [n] := rfl

theorem StackFrontier.contains_state_eq_false (f : StackFrontier) (s : Nat × Nat) :
    f.contains_state s = false ↔ ∀ n ∈ f.frontier, n.state ≠ s := by
  simp [StackFrontier.contains_state]

theorem StackFrontier.empty_eq_false (f : StackFrontier) :
    f.empty = false ↔ f.frontier ≠ [] := by
  simp [StackFrontier.empty, List.length_eq_zero]

theorem StackFrontier.remove_concat (f : StackFrontier) (l : List Node) (n : Node)
    (h : f.frontier = l ++ [n]) : f.remove = .ok (n, ⟨l⟩) := by
  simp [StackFrontier.remove, h, List.getLast?_concat, List.dropLast_concat]

/-! Characterization of `Maze.neighbors`. -/

theorem foldl_filter_append {α β : Type} (v : α → Bool) (t : α → β) :
    ∀ (L : List α) (acc : List β),
      L.foldl (fun res p => if v p then res ++ [t p] else res) acc
        = acc ++ (L.filter v).map t := by
  intro L
  induction L with
  | nil => simp
  | cons p L ih =>
    intro acc
    by_cases h : v p <;> simp [h, ih]

/-- One candidate segment of the `neighbors` loop equals the corresponding
`validTarget` entry. -/
theorem validTarget_segment (m : Maze) (st : Nat × Nat) (a : Action) (ri ci : Int)
    (h1 : ri = (st.1 : Int) + (delta a).1) (h2 : ci = (st.2 : Int) + (delta a).2) :
    (if (0 ≤ ri && ri < (m.height : Int) && 0 ≤ ci && ci < (m.width : Int)
          && !(wallAt m ri.toNat ci.toNat))
     then ([(a, (ri.toNat, ci.toNat))] : List (Action × (Nat × Nat)))
     else []) = (validTarget m st a).toList := by
  subst h1 h2
  simp only [validTarget, Bool.and_eq_true, decide_eq_true_eq, Bool.not_eq_true']
  split_ifs with hb hp hp
  · simp
  · exact absurd ⟨hb.1.1.1.1, hb.1.1.1.2, hb.1.1.2, hb.1.2, hb.2⟩ hp
  · exact absurd ⟨⟨⟨⟨hp.1, hp.2.1⟩, hp.2.2.1⟩, hp.2.2.2.1⟩, hp.2.2.2.2⟩ hb
  · simp

theorem ite_append_singleton {α : Type} (c : Prop) [Decidable c] (acc : List α) (x : α) :
    (if c then acc ++ [x] else acc) = acc ++ (if c then [x] else []) := by
  split_ifs <;> simp

theorem filterMap_quad {α β : Type} (f : α → Option β) (a1 a2 a3 a4 : α) :
    [a1, a2, a3, a4].filterMap f
      = (f a1).toList ++ (f a2).toList ++ (f a3).toList ++ (f a4).toList := by
  cases h1 : f a1 <;> cases h2 : f a2 <;> cases h3 : f a3 <;> cases h4 : f a4 <;>
    simp [List.filterMap_cons, h1, h2, h3, h4]

/-- The candidate-filtering loop of `neighbors`, in closed form: the ordered
four-candidate list, each kept iff its target is in bounds and not a wall. -/
theorem Maze.neighbors_eq_filterMap (m : Maze) (st : Nat × Nat) :
    m.neighbors st = [Action.up, .down, .left, .right].filterMap (validTarget m st) := by
  obtain ⟨r, c⟩ := st
  have hseg : ∀ a : Action, ∀ ri ci : Int,
      ri = ((r, c).1 : Int) + (delta a).1 → ci = ((r, c).2 : Int) + (delta a).2 →
      (if (0 ≤ ri && ri < (m.height : Int) && 0 ≤ ci && ci < (m.width : Int)
            && !(wallAt m ri.toNat ci.toNat))
       then ([(a, (ri.toNat, ci.toNat))] : List (Action × (Nat × Nat)))
       else []) = (validTarget m (r, c) a).toList := validTarget_segment m (r, c)
  have e1 := hseg .up ((r : Int) - 1) (c : Int) (by simp [delta]; omega) (by simp [delta])
  have e2 := hseg .down ((r : Int) + 1) (c : Int) (by simp [delta]) (by simp [delta])
  have e3 := hseg .left (r : Int) ((c : Int) - 1) (by simp [delta]) (by simp [delta]; omega)
  have e4 := hseg .right (r : Int) ((c : Int) + 1) (by simp [delta]) (by simp [delta])
  rw [filterMap_quad, ← e1, ← e2, ← e3, ← e4]
  simp only [Maze.neighbors, List.foldl_cons, List.foldl_nil]
  rw [ite_append_singleton, ite_append_singleton, ite_append_singleton, ite_append_singleton]
  simp

theorem validTarget_eq_some (m : Maze) (st : Nat × Nat) (a b : Action) (s : Nat × Nat) :
    validTarget m st a = some (b, s) ↔
      b = a ∧ stepB a st s = true ∧ s.1 < m.height ∧ s.2 < m.width
        ∧ wallAt m s.1 s.2 = false := by
  simp only [validTarget]
  split_ifs with h
  · obtain ⟨h1, h2, h3, h4, h5⟩ := h
    simp only [Option.some.injEq, Prod.mk.injEq]
    constructor
    · rintro ⟨rfl, rfl⟩
      refine ⟨rfl, ?_, by omega, by omega, h5⟩
      simp only [stepB, Bool.and_eq_true, beq_iff_eq]
      omega
    · rintro ⟨hba, hstep, hs1, hs2, hw⟩
      simp only [stepB, Bool.and_eq_true, beq_iff_eq] at hstep
      exact ⟨hba.symm, Prod.ext (by omega) (by omega)⟩
  · constructor
    · intro hx
      exact hx.elim
    · rintro ⟨hba, hstep, hs1, hs2, hw⟩
      simp only [stepB, Bool.and_eq_true, beq_iff_eq] at hstep
      exfalso
      apply h
      refine ⟨by omega, by omega, by omega, by omega, ?_⟩
      have g1 : ((st.1 : Int) + (delta a).1).toNat = s.1 := by omega
      have g2 : ((st.2 : Int) + (delta a).2).toNat = s.2 := by omega
      rw [g1, g2]
      exact hw

/-- Membership in `neighbors`: exactly the in-bounds, non-wall cells one
action-delta away, paired with that action. -/
theorem Maze.mem_neighbors (m : Maze) (st : Nat × Nat) (a : Action) (s : Nat × Nat) :
    (a, s) ∈ m.neighbors st ↔
      stepB a st s = true ∧ s.1 < m.height ∧ s.2 < m.width ∧ wallAt m s.1 s.2 = false := by
  rw [Maze.neighbors_eq_filterMap, List.mem_filterMap]
  constructor
  · rintro ⟨a', _, h⟩
    rw [validTarget_eq_some] at h
    obtain ⟨rfl, h⟩ := h
    exact h
  · rintro h
    refine ⟨a, by cases a <;> simp, ?_⟩
    rw [validTarget_eq_some]
    exact ⟨rfl, h⟩

/-- The delta of an action recovers the action: two actions stepping from
the same cell onto the same cell are equal. -/
theorem stepB_inj {a a' : Action} {st s : Nat × Nat}
    (h : stepB a st s = true) (h' : stepB a' st s = true) : a = a' := by
  simp only [stepB, Bool.and_eq_true, beq_iff_eq] at h h'
  cases a <;> cases a' <;> first
    | rfl
    | (exfalso; simp only [delta] at h h'; omega)

/-- A step never stays in place. -/
theorem stepB_ne {a : Action} {st s : Nat × Nat} (h : stepB a st s = true) : st ≠ s := by
  intro hEq
  subst hEq
  simp only [stepB, Bool.and_eq_true, beq_iff_eq] at h
  cases a <;> simp only [delta] at h <;> omega

/-- The target states listed by `neighbors` are pairwise distinct. -/
theorem Maze.neighbors_states_nodup (m : Maze) (st : Nat × Nat) :
    ((m.neighbors st).map Prod.snd).Nodup := by
  have hnd : (m.neighbors st).Nodup := by
    rw [Maze.neighbors_eq_filterMap]
    refine List.Nodup.filterMap ?_ (by decide)
    intro a a' b hb hb'
    obtain ⟨b1, b2⟩ := b
    rw [Option.mem_def, validTarget_eq_some] at hb hb'
    exact stepB_inj hb.2.1 hb'.2.1
  refine hnd.map_on ?_
  intro x hx y hy hxy
  obtain ⟨xa, xs⟩ := x
  obtain ⟨ya, ys⟩ := y
  rw [Maze.mem_neighbors] at hx hy
  simp only at hxy
  subst hxy
  simp [stepB_inj hx.1 hy.1]

/-! Lemmas about parsing (`splitlines`, `mazeOfString`). -/

theorem splitlinesAux_nil (cur : List Char) : splitlinesAux cur [] = [cur.reverse] := rfl

theorem splitlinesAux_newline_nil (cur : List Char) :
    splitlinesAux cur ['\n'] = [cur.reverse] := rfl

theorem splitlinesAux_newline_cons (cur : List Char) (c : Char) (rest : List Char) :
    splitlinesAux cur ('\n' :: c :: rest) = cur.reverse :: splitlinesAux [] (c :: rest) := rfl

theorem splitlinesAux_cons (cur : List Char) (c : Char) (rest : List Char) (hc : c ≠ '\n') :
    splitlinesAux cur (c :: rest) = splitlinesAux (c :: cur) rest := by
  cases rest with
  | nil => simp [splitlinesAux, hc]
  | cons d ds => simp [splitlinesAux, hc]

/-- A character other than a newline occurs in the split lines exactly when
it occurs in the accumulator or the remaining text. -/
theorem mem_splitlinesAux {ch : Char} (hch : ch ≠ '\n') :
    ∀ (s cur : List Char),
      (∃ l ∈ splitlinesAux cur s, ch ∈ l) ↔ ch ∈ cur ∨ ch ∈ s := by
  intro s
  induction s with
  | nil => intro cur; simp [splitlinesAux_nil]
  | cons c rest ih =>
    intro cur
    by_cases hc : c = '\n'
    · subst hc
      cases rest with
      | nil => simp [splitlinesAux_newline_nil, hch]
      | cons c' rest' =>
        rw [splitlinesAux_newline_cons]
        constructor
        · rintro ⟨l, hl, hmem⟩
          rcases List.mem_cons.mp hl with h | h
          · left; subst h; simpa using hmem
          · rcases (ih []).mp ⟨l, h, hmem⟩ with h' | h'
            · exact absurd h' (List.not_mem_nil ch)
            · right; exact List.mem_cons_of_mem _ h'
        · rintro (hcur | hs)
          · exact ⟨cur.reverse, List.mem_cons_self _ _, by simpa using hcur⟩
          · have hs' : ch ∈ c' :: rest' := by
              rcases List.mem_cons.mp hs with h | h
              · exact absurd h hch
              · exact h
            obtain ⟨l, hl, hmem⟩ := (ih []).mpr (Or.inr hs')
            exact ⟨l, List.mem_cons_of_mem _ hl, hmem⟩
    · rw [splitlinesAux_cons cur c rest hc, ih (c :: cur)]
      constructor
      · rintro (h | h)
        · rcases List.mem_cons.mp h with h' | h'
          · right; exact h' ▸ List.mem_cons_self c rest
          · left; exact h'
        · right; exact List.mem_cons_of_mem _ h
      · rintro (h | h)
        · left; exact List.mem_cons_of_mem _ h
        · rcases List.mem_cons.mp h with h' | h'
          · left; exact h' ▸ List.mem_cons_self c cur
          · right; exact h'

theorem mem_splitlines {ch : Char} (hch : ch ≠ '\n') (s : List Char) :
    (∃ l ∈ splitlines s, ch ∈ l) ↔ ch ∈ s := by
  cases s with
  | nil => simp [splitlines]
  | cons c rest =>
    rw [show splitlines (c :: rest) = splitlinesAux [] (c :: rest) from rfl,
      mem_splitlinesAux hch]
    simp

theorem le_foldl_max :
    ∀ (lines : List (List Char)) (acc : Nat),
      acc ≤ lines.foldl (fun a line => max a line.length) acc := by
  intro lines
  induction lines with
  | nil => simp
  | cons x xs ih =>
    intro acc
    exact le_trans (le_max_left acc x.length) (ih (max acc x.length))

/-- The folded maximum is the initial value or the length of some line. -/
theorem foldl_max_attained :
    ∀ (lines : List (List Char)) (acc : Nat),
      lines.foldl (fun a line => max a line.length) acc = acc ∨
      ∃ l ∈ lines, lines.foldl (fun a line => max a line.length) acc = l.length := by
  intro lines
  induction lines with
  | nil => intro acc; exact Or.inl rfl
  | cons x xs ih =>
    intro acc
    simp only [List.foldl_cons]
    rcases ih (max acc x.length) with h | ⟨l, hl, hEq⟩
    · rcases max_choice acc x.length with hm | hm
      · left
        rw [h, hm]
      · right
        exact ⟨x, List.mem_cons_self _ _, by rw [h, hm]⟩
    · right
      exact ⟨l, List.mem_cons_of_mem _ hl, hEq⟩

/-- Every line's length is bounded by the folded maximum. -/
theorem length_le_foldl_max :
    ∀ (lines : List (List Char)) (acc : Nat) (l : List Char), l ∈ lines →
      l.length ≤ lines.foldl (fun a line => max a line.length) acc := by
  intro lines
  induction lines with
  | nil => simp
  | cons x xs ih =>
    intro acc l hl
    rcases List.mem_cons.mp hl with h | h
    · subst h
      exact le_trans (le_max_right acc l.length) (le_foldl_max xs (max acc l.length))
    · exact ih _ l h

theorem getD_map_range {α : Type} (f : Nat → α) (n i : Nat) (d : α) (h : i < n) :
    ((List.range n).map f).getD i d = f i := by
  rw [List.getD_eq_getElem _ _ (by simpa using h)]
  simp

theorem mem_allCells (h w i j : Nat) : (i, j) ∈ allCells h w ↔ i < h ∧ j < w := by
  simp [allCells]

/-- Successful construction pins down every field of the maze. -/
theorem mazeOfString_ok {cs : List Char} {m : Maze} (h : mazeOfString cs = .ok m) :
    cs.count 'A' = 1 ∧ cs.count 'B' = 1 ∧
      m.height = (splitlines cs).length ∧
      m.width = (splitlines cs).foldl (fun acc line => max acc line.length) 0 ∧
      m.walls = (List.range m.height).map
        (fun i => (List.range m.width).map (fun j => charAt (splitlines cs) i j == '#')) ∧
      m.start = ((allCells m.height m.width).find?
        (fun p => charAt (splitlines cs) p.1 p.2 == 'A')).getD (0, 0) ∧
      m.goal = ((allCells m.height m.width).find?
        (fun p => charAt (splitlines cs) p.1 p.2 == 'B')).getD (0, 0) ∧
      m.solution = none ∧ m.num_explored = 0 ∧ m.explored = [] := by
  unfold mazeOfString at h
  by_cases h1 : cs.count 'A' ≠ 1
  · rw [if_pos h1] at h
    exact Except.noConfusion h
  · rw [if_neg h1] at h
    by_cases h2 : cs.count 'B' ≠ 1
    · rw [if_pos h2] at h
      exact Except.noConfusion h
    · rw [if_neg h2] at h
      have hm := Except.ok.inj h
      subst hm
      exact ⟨by omega, by omega, rfl, rfl, rfl, rfl, rfl, rfl, rfl, rfl⟩

/-- In bounds, the wall matrix of a parsed maze reads off the source text. -/
theorem wallAt_mazeOfString {cs : List Char} {m : Maze} (h : mazeOfString cs = .ok m)
    (i j : Nat) (hi : i < m.height) (hj : j < m.width) :
    wallAt m i j = (charAt (splitlines cs) i j == '#') := by
  obtain ⟨-, -, -, -, hw, -⟩ := mazeOfString_ok h
  rw [wallAt, hw, getD_map_range _ _ _ _ hi, getD_map_range _ _ _ _ hj]

/-- A marker character present in the text is found by the grid scan, within
bounds and reading back the marker. -/
theorem find_marker {cs : List Char} (ch : Char) (hch : ch ≠ '\n')
    (hcount : 0 < cs.count ch) :
    ∃ p : Nat × Nat,
      ((allCells (splitlines cs).length
          ((splitlines cs).foldl (fun acc line => max acc line.length) 0)).find?
        (fun p => charAt (splitlines cs) p.1 p.2 == ch)) = some p ∧
      p.1 < (splitlines cs).length ∧
      p.2 < (splitlines cs).foldl (fun acc line => max acc line.length) 0 ∧
      charAt (splitlines cs) p.1 p.2 = ch := by
  have hmem : ch ∈ cs := List.count_pos_iff.mp hcount
  obtain ⟨l, hl, hchl⟩ := (mem_splitlines hch cs).mpr hmem
  obtain ⟨i, hi, hli⟩ := List.mem_iff_getElem.mp hl
  obtain ⟨j, hj, hlj⟩ := List.mem_iff_getElem.mp hchl
  have hjw : j < (splitlines cs).foldl (fun acc line => max acc line.length) 0 :=
    lt_of_lt_of_le hj (length_le_foldl_max _ 0 l hl)
  have hval : charAt (splitlines cs) i j = ch := by
    rw [charAt, List.getD_eq_getElem _ _ hi, hli, List.getD_eq_getElem _ _ hj, hlj]
  have hsome : (((allCells (splitlines cs).length
      ((splitlines cs).foldl (fun acc line => max acc line.length) 0)).find?
        (fun p => charAt (splitlines cs) p.1 p.2 == ch))).isSome := by
    rw [List.find?_isSome]
    exact ⟨(i, j), (mem_allCells _ _ _ _).mpr ⟨hi, hjw⟩, by simpa using hval⟩
  obtain ⟨p, hp⟩ := Option.isSome_iff_exists.mp hsome
  obtain ⟨p1, p2⟩ := p
  have hpred := List.find?_some hp
  have hcells := (mem_allCells _ _ _ _).mp (List.mem_of_find?_eq_some hp)
  exact ⟨(p1, p2), hp, hcells.1, hcells.2, by simpa using hpred⟩

/-! The search-loop invariant and its preservation. -/

theorem Node.state_mk (s : Nat × Nat) (p : Option Node) (a : Option Action) :
    (Node.mk s p a).state = s := rfl

/-- The nodes the search loop can ever handle: the root at `start`, and
children obtained by expanding a good node through `neighbors`. -/
inductive GoodNode (m : Maze) : Node → Prop where
  | root : GoodNode m (.mk m.start none none)
  | child {p : Node} {a : Action} {s : Nat × Nat} :
      GoodNode m p → (a, s) ∈ m.neighbors p.state → GoodNode m (.mk s (some p) (some a))

theorem StackFrontier.contains_state_add (f : StackFrontier) (n : Node) (s : Nat × Nat) :
    (f.add n).contains_state s = (f.contains_state s || (n.state == s)) := by
  simp [StackFrontier.add, StackFrontier.contains_state]

/-- Nodes already in the frontier survive `addChildren`. -/
theorem addChildren_mem_of_mem (node : Node) (ex : List (Nat × Nat)) :
    ∀ (L : List (Action × (Nat × Nat))) (fr : StackFrontier) (n : Node),
      n ∈ fr.frontier → n ∈ (addChildren node ex L fr).frontier := by
  intro L
  induction L with
  | nil => intro fr n h; exact h
  | cons p L ih =>
    intro fr n h
    simp only [addChildren, List.foldl_cons]
    by_cases hp : fr.contains_state p.2 = false ∧ p.2 ∉ ex
    · rw [if_pos hp]
      exact ih _ n (by simp [StackFrontier.add, h])
    · rw [if_neg hp]
      exact ih _ n h

/-- Every node of the frontier after `addChildren` is an old node or a
newly created child of `node` for some listed neighbor not yet explored. -/
theorem addChildren_mem (node : Node) (ex : List (Nat × Nat)) :
    ∀ (L : List (Action × (Nat × Nat))) (fr : StackFrontier) (n : Node),
      n ∈ (addChildren node ex L fr).frontier →
      n ∈ fr.frontier ∨ ∃ a s, (a, s) ∈ L ∧ s ∉ ex ∧ n = .mk s (some node) (some a) := by
  intro L
  induction L with
  | nil => intro fr n h; exact Or.inl h
  | cons p L ih =>
    intro fr n h
    simp only [addChildren, List.foldl_cons] at h
    by_cases hp : fr.contains_state p.2 = false ∧ p.2 ∉ ex
    · rw [if_pos hp] at h
      rcases ih _ n h with hold | ⟨a, s, hmem, hex, hn⟩
      · rcases List.mem_append.mp hold with hold' | hnew
        · exact Or.inl hold'
        · right
          refine ⟨p.1, p.2, List.mem_cons_self _ _, hp.2, ?_⟩
          simpa using hnew
      · exact Or.inr ⟨a, s, List.mem_cons_of_mem _ hmem, hex, hn⟩
    · rw [if_neg hp] at h
      rcases ih _ n h with hold | ⟨a, s, hmem, hex, hn⟩
      · exact Or.inl hold
      · exact Or.inr ⟨a, s, List.mem_cons_of_mem _ hmem, hex, hn⟩

/-- Folding `addChildren` preserves distinctness of the frontier's states: a child
is only added when `contains_state` rejects its state. -/
theorem addChildren_states_nodup (node : Node) (ex : List (Nat × Nat)) :
    ∀ (L : List (Action × (Nat × Nat))) (fr : StackFrontier),
      (fr.frontier.map Node.state).Nodup →
      ((addChildren node ex L fr).frontier.map Node.state).Nodup := by
  intro L
  induction L with
  | nil => intro fr h; exact h
  | cons p L ih =>
    intro fr h
    simp only [addChildren, List.foldl_cons]
    by_cases hp : fr.contains_state p.2 = false ∧ p.2 ∉ ex
    · rw [if_pos hp]
      apply ih
      rw [StackFrontier.frontier_add, List.map_append]
      refine List.Nodup.append h (by simp) ?_
      intro x hx hx'
      simp only [List.map_cons, List.map_nil, List.mem_singleton, Node.state_mk] at hx'
      obtain ⟨n, hn, rfl⟩ := List.mem_map.mp hx
      exact ((StackFrontier.contains_state_eq_false fr p.2).mp hp.1 n hn) (by simpa using hx')
    · rw [if_neg hp]
      exact ih _ h

/-- A listed pair whose state is not yet explored nor in the frontier does
get added, as a child of `node` carrying exactly its action. -/
theorem addChildren_mem_target (node : Node) (ex : List (Nat × Nat)) :
    ∀ (L : List (Action × (Nat × Nat))) (fr : StackFrontier) (a : Action) (s : Nat × Nat),
      (L.map Prod.snd).Nodup → (a, s) ∈ L → s ∉ ex → fr.contains_state s = false →
      (Node.mk s (some node) (some a)) ∈ (addChildren node ex L fr).frontier := by
  intro L
  induction L with
  | nil => intro fr a s _ h; exact absurd h (List.not_mem_nil _)
  | cons p L ih =>
    intro fr a s hnd hmem hex hcs
    simp only [addChildren, List.foldl_cons]
    rcases List.mem_cons.mp hmem with hhd | htl
    · subst hhd
      rw [if_pos ⟨hcs, hex⟩]
      exact addChildren_mem_of_mem node ex L _ _ (by simp [StackFrontier.add])
    · have hps : p.2 ≠ s := by
        intro hEq
        have : s ∈ L.map Prod.snd := List.mem_map.mpr ⟨(a, s), htl, rfl⟩
        rw [List.map_cons, hEq] at hnd
        exact (List.nodup_cons.mp hnd).1 this
      have hnd' : (L.map Prod.snd).Nodup := (List.nodup_cons.mp (List.map_cons _ _ _ ▸ hnd)).2
      by_cases hp : fr.contains_state p.2 = false ∧ p.2 ∉ ex
      · rw [if_pos hp]
        apply ih _ a s hnd' htl hex
        rw [StackFrontier.contains_state_add, hcs]
        simpa using hps
      · rw [if_neg hp]
        exact ih _ a s hnd' htl hex hcs

/-- Two frontier members with equal states are the same node when the
frontier's states are distinct. -/
theorem mem_states_eq :
    ∀ {l : List Node}, (l.map Node.state).Nodup →
      ∀ {n n' : Node}, n ∈ l → n' ∈ l → n.state = n'.state → n = n' := by
  intro l
  induction l with
  | nil => intro _ n n' h; exact absurd h (List.not_mem_nil _)
  | cons x xs ih =>
    intro hnd n n' hn hn' hs
    rw [List.map_cons, List.nodup_cons] at hnd
    rcases List.mem_cons.mp hn with h1 | h1
    · rcases List.mem_cons.mp hn' with h2 | h2
      · rw [h1, h2]
      · subst h1
        exact absurd (List.mem_map.mpr ⟨n', h2, hs.symm⟩) hnd.1
    · rcases List.mem_cons.mp hn' with h2 | h2
      · subst h2
        exact absurd (List.mem_map.mpr ⟨n, h1, hs⟩) hnd.1
      · exact ih hnd.2 h1 h2 hs

/-- The loop invariant of `solve`: every frontier node is a good search-tree
node, frontier states are pairwise distinct and unexplored, the explored set
has no duplicates and never holds the goal, and the counter tracks the
explored set's size. -/
structure InvCore (m : Maze) (fr : StackFrontier) (ex : List (Nat × Nat)) (ne : Nat) : Prop where
  good : ∀ n ∈ fr.frontier, GoodNode m n
  nodupS : (fr.frontier.map Node.state).Nodup
  disj : ∀ n ∈ fr.frontier, n.state ∉ ex
  exNodup : ex.Nodup
  goalFree : m.goal ∉ ex
  count : ne = ex.length

theorem invCore_init (m : Maze) : InvCore m ⟨[Node.mk m.start none none]⟩ [] 0 := by
  refine ⟨?_, by simp, by simp, by simp, by simp, by simp⟩
  intro n hn
  rw [List.mem_singleton] at hn
  exact hn ▸ GoodNode.root

/-- One non-goal iteration of the loop preserves the invariant. -/
theorem inv_step {m : Maze} {init : List Node} {node : Node} {ex : List (Nat × Nat)} {ne : Nat}
    (hInv : InvCore m ⟨init ++ [node]⟩ ex ne) (hng : node.state ≠ m.goal) :
    InvCore m (addChildren node (setInsert ex node.state) (m.neighbors node.state) ⟨init⟩)
      (setInsert ex node.state) (ne + 1) := by
  have hnodeMem : node ∈ (⟨init ++ [node]⟩ : StackFrontier).frontier := by simp
  have hnodeGood : GoodNode m node := hInv.good node hnodeMem
  have hnodeEx : node.state ∉ ex := hInv.disj node hnodeMem
  have hsetIns : setInsert ex node.state = node.state :: ex := by
    rw [setInsert, if_neg hnodeEx]
  have hsplit : (init.map Node.state).Nodup ∧ node.state ∉ init.map Node.state := by
    have h := hInv.nodupS
    rw [List.map_append, List.nodup_append] at h
    exact ⟨h.1, fun hmem => h.2.2 hmem (by simp)⟩
  constructor
  · intro n hn
    rcases addChildren_mem _ _ _ _ _ hn with hold | ⟨a, s, hmem, _, rfl⟩
    · exact hInv.good n (by simp [hold])
    · exact GoodNode.child hnodeGood hmem
  · exact addChildren_states_nodup _ _ _ _ hsplit.1
  · intro n hn
    rcases addChildren_mem _ _ _ _ _ hn with hold | ⟨a, s, hmem, hs, rfl⟩
    · rw [hsetIns]
      intro hmem'
      rcases List.mem_cons.mp hmem' with hEq | hEq
      · exact hsplit.2 (hEq ▸ List.mem_map.mpr ⟨n, hold, rfl⟩)
      · exact hInv.disj n (by simp [hold]) hEq
    · exact hs
  · rw [hsetIns]
    exact List.nodup_cons.mpr ⟨hnodeEx, hInv.exNodup⟩
  · rw [hsetIns]
    intro hmem
    rcases List.mem_cons.mp hmem with hEq | hEq
    · exact hng hEq.symm
    · exact hInv.goalFree hEq
  · rw [hsetIns, List.length_cons, hInv.count]

/-- One unfolding of the search loop when the frontier splits as
`init ++ [node]`: the stack pops `node`. -/
theorem Maze.solveLoop_cons (m : Maze) (fuel : Nat) (init : List Node) (node : Node)
    (ex : List (Nat × Nat)) (ne : Nat) :
    m.solveLoop (fuel + 1) ⟨init ++ [node]⟩ ex ne =
      if node.state = m.goal then
        some ((ne + 1, ex), .ok ((backtrack node).1.reverse, (backtrack node).2.reverse))
      else
        m.solveLoop fuel
          (addChildren node (setInsert ex node.state) (m.neighbors node.state) ⟨init⟩)
          (setInsert ex node.state) (ne + 1) := by
  have hemp : (⟨init ++ [node]⟩ : StackFrontier).empty = false := by
    simp [StackFrontier.empty]
  have hrem : (⟨init ++ [node]⟩ : StackFrontier).remove = .ok (node, ⟨init⟩) :=
    StackFrontier.remove_concat _ init node rfl
  rw [Maze.solveLoop, hemp, hrem]
  simp

/-- A duplicate-free explored set of in-bounds cells cannot outgrow the grid. -/
theorem explored_le (m : Maze) (ex : List (Nat × Nat)) (hnd : ex.Nodup)
    (hb : ∀ s ∈ ex, s.1 < m.height ∧ s.2 < m.width) :
    ex.length ≤ m.height * m.width := by
  classical
  have h1 : ex.toFinset.card = ex.length := List.toFinset_card_of_nodup hnd
  have h2 : ex.toFinset ⊆ (Finset.range m.height) ×ˢ (Finset.range m.width) := by
    intro p hp
    rw [List.mem_toFinset] at hp
    obtain ⟨p1, p2⟩ := p
    rw [Finset.mem_product, Finset.mem_range, Finset.mem_range]
    exact hb _ hp
  calc ex.length = ex.toFinset.card := h1.symm
    _ ≤ ((Finset.range m.height) ×ˢ (Finset.range m.width)).card := Finset.card_le_card h2
    _ = m.height * m.width := by rw [Finset.card_product, Finset.card_range, Finset.card_range]

/-- Soundness of the search loop: whenever it returns, the goal was never
put into the explored set, the only raised error is `"no solution"`, and a
successful result is the reversed backtrack of a good node sitting at the
goal, with the counter one ahead of the explored set. -/
theorem solveLoop_sound (m : Maze) :
    ∀ (fuel : Nat) (fr : StackFrontier) (ex : List (Nat × Nat)) (ne : Nat)
      (res : (Nat × List (Nat × Nat)) ×
        Except SearchError (List (Option Action) × List (Nat × Nat))),
      InvCore m fr ex ne →
      m.solveLoop fuel fr ex ne = some res →
      m.goal ∉ res.1.2 ∧
      (∀ e, res.2 = .error e → e = .noSolution) ∧
      (∀ sol, res.2 = .ok sol →
        res.1.1 = res.1.2.length + 1 ∧
        ∃ n, GoodNode m n ∧ n.state = m.goal ∧
          sol = ((backtrack n).1.reverse, (backtrack n).2.reverse)) := by
  intro fuel
  induction fuel with
  | zero =>
    intro fr ex ne res _ hsome
    simp [Maze.solveLoop] at hsome
  | succ fuel ih =>
    intro fr ex ne res hInv hsome
    obtain ⟨fl⟩ := fr
    rcases fl.eq_nil_or_concat' with rfl | ⟨init, node, rfl⟩
    · rw [show m.solveLoop (fuel + 1) ⟨[]⟩ ex ne
          = some ((ne, ex), .error .noSolution) from by rw [Maze.solveLoop]; rfl] at hsome
      obtain rfl := Option.some.inj hsome
      refine ⟨hInv.goalFree, fun e he => ?_, fun sol hsol => Except.noConfusion hsol⟩
      simpa using (Except.error.inj he).symm
    · rw [Maze.solveLoop_cons] at hsome
      by_cases hg : node.state = m.goal
      · rw [if_pos hg] at hsome
        obtain rfl := Option.some.inj hsome
        refine ⟨hInv.goalFree, fun e he => Except.noConfusion he, fun sol hsol => ?_⟩
        refine ⟨by simp [hInv.count], node, hInv.good node (by simp), hg, ?_⟩
        simpa using (Except.ok.inj hsol).symm
      · rw [if_neg hg] at hsome
        exact ih _ _ _ _ (inv_step hInv hg) hsome

/-- The fuel `height * width + 1` suffices: the loop always returns. -/
theorem solveLoop_total (m : Maze) :
    ∀ (fuel : Nat) (fr : StackFrontier) (ex : List (Nat × Nat)) (ne : Nat),
      InvCore m fr ex ne →
      (∀ n ∈ fr.frontier, n.state.1 < m.height ∧ n.state.2 < m.width) →
      (∀ s ∈ ex, s.1 < m.height ∧ s.2 < m.width) →
      m.height * m.width + 1 ≤ fuel + ex.length →
      (m.solveLoop fuel fr ex ne).isSome := by
  intro fuel
  induction fuel with
  | zero =>
    intro fr ex ne hInv _ hexB hfuel
    have := explored_le m ex hInv.exNodup hexB
    omega
  | succ fuel ih =>
    intro fr ex ne hInv hfrB hexB hfuel
    obtain ⟨fl⟩ := fr
    rcases fl.eq_nil_or_concat' with rfl | ⟨init, node, rfl⟩
    · rw [show m.solveLoop (fuel + 1) ⟨[]⟩ ex ne
          = some ((ne, ex), .error .noSolution) from by rw [Maze.solveLoop]; rfl]
      rfl
    · rw [Maze.solveLoop_cons]
      by_cases hg : node.state = m.goal
      · rw [if_pos hg]
        rfl
      · rw [if_neg hg]
        have hnodeEx : node.state ∉ ex := hInv.disj node (by simp)
        have hsetIns : setInsert ex node.state = node.state :: ex := by
          rw [setInsert, if_neg hnodeEx]
        refine ih _ _ _ (inv_step hInv hg) ?_ ?_ ?_
        · intro n hn
          rcases addChildren_mem _ _ _ _ _ hn with hold | ⟨a, s, hmem, _, rfl⟩
          · exact hfrB n (by simp [hold])
          · have := (Maze.mem_neighbors m node.state a s).mp hmem
            exact ⟨this.2.1, this.2.2.1⟩
        · intro s hs
          rw [hsetIns] at hs
          rcases List.mem_cons.mp hs with rfl | hs'
          · exact hfrB node (by simp)
          · exact hexB s hs'
        · rw [hsetIns]
          simp only [List.length_cons]
          omega

/-- If a node holding the goal as a direct child of the root is in the
frontier, the loop can only finish successfully, with the one-action
solution of that node. -/
theorem solveLoop_gnode (m : Maze) (a : Action) :
    ∀ (fuel : Nat) (fr : StackFrontier) (ex : List (Nat × Nat)) (ne : Nat)
      (res : (Nat × List (Nat × Nat)) ×
        Except SearchError (List (Option Action) × List (Nat × Nat))),
      InvCore m fr ex ne →
      (Node.mk m.goal (some (.mk m.start none none)) (some a)) ∈ fr.frontier →
      m.solveLoop fuel fr ex ne = some res →
      res.2 = .ok ([some a], [m.goal]) := by
  intro fuel
  induction fuel with
  | zero =>
    intro fr ex ne res _ _ hsome
    simp [Maze.solveLoop] at hsome
  | succ fuel ih =>
    intro fr ex ne res hInv hmem hsome
    obtain ⟨fl⟩ := fr
    rcases fl.eq_nil_or_concat' with rfl | ⟨init, node, rfl⟩
    · exact absurd hmem (List.not_mem_nil _)
    · rw [Maze.solveLoop_cons] at hsome
      by_cases hg : node.state = m.goal
      · rw [if_pos hg] at hsome
        obtain rfl := Option.some.inj hsome
        have hEq : node = Node.mk m.goal (some (.mk m.start none none)) (some a) :=
          mem_states_eq hInv.nodupS (by simp) hmem (by rw [hg]; rfl)
        rw [hEq]
        rfl
      · rw [if_neg hg] at hsome
        have hne : node ≠ Node.mk m.goal (some (.mk m.start none none)) (some a) := by
          intro hEq
          exact hg (by rw [hEq]; rfl)
        have hmem' : (Node.mk m.goal (some (.mk m.start none none)) (some a)) ∈ init := by
          rcases List.mem_append.mp hmem with h | h
          · exact h
          · exact absurd (List.mem_singleton.mp h).symm hne
        exact ih _ _ _ _ (inv_step hInv hg)
          (addChildren_mem_of_mem _ _ _ _ _ hmem') hsome

/-! The reconstructed solution is a walk. -/

theorem walkOK_append (L : List (Option Action × (Nat × Nat))) :
    ∀ (pos : Nat × Nat) (a : Action) (c : Nat × Nat),
      walkOK pos (L ++ [(some a, c)])
        = (walkOK pos L && stepB a ((L.map Prod.snd).getLastD pos) c) := by
  induction L with
  | nil => intro pos a c; simp [walkOK]
  | cons p L ih =>
    intro pos a c
    obtain ⟨oa, c'⟩ := p
    cases oa with
    | none => simp [walkOK]
    | some a' =>
      simp only [List.cons_append, walkOK, List.map_cons, List.getLastD_cons, List.append_eq]
      rw [ih, Bool.and_assoc]

theorem backtrack_root (s : Nat × Nat) (a : Option Action) :
    backtrack (.mk s none a) = ([], []) := rfl

theorem backtrack_child (s : Nat × Nat) (p : Node) (a : Option Action) :
    backtrack (.mk s (some p) a) = (a :: (backtrack p).1, s :: (backtrack p).2) := rfl

/-- The reversed backtrack of a good node has equal-length action and cell
lists, forms a walk from the start, and ends at the node's state. -/
theorem backtrack_walk {m : Maze} {n : Node} (hgood : GoodNode m n) :
    (backtrack n).1.length = (backtrack n).2.length ∧
    walkOK m.start ((backtrack n).1.reverse.zip (backtrack n).2.reverse) = true ∧
    (backtrack n).2.reverse.getLastD m.start = n.state := by
  induction hgood with
  | root => exact ⟨rfl, rfl, rfl⟩
  | @child p a s hp hmem ih =>
    obtain ⟨ihlen, ihwalk, ihlast⟩ := ih
    have hstep : stepB a p.state s = true := ((Maze.mem_neighbors m p.state a s).mp hmem).1
    refine ⟨by simp [backtrack_child, ihlen], ?_, ?_⟩
    · rw [backtrack_child]
      simp only [List.reverse_cons]
      rw [List.zip_append (by simp [ihlen])]
      simp only [List.zip_cons_cons, List.zip_nil_right]
      rw [walkOK_append]
      have hsnd : ((backtrack p).1.reverse.zip (backtrack p).2.reverse).map Prod.snd
          = (backtrack p).2.reverse :=
        List.map_snd_zip _ _ (by simp [ihlen])
      rw [hsnd, ihlast]
      simp [ihwalk, hstep, walkOK]
    · rw [backtrack_child]
      simp only [List.reverse_cons]
      rw [List.getLastD_concat]
      rfl

/-- A good node's state is the start or an in-bounds non-wall cell. -/
theorem goodNode_state {m : Maze} {n : Node} (h : GoodNode m n) :
    n.state = m.start ∨
      (n.state.1 < m.height ∧ n.state.2 < m.width ∧ wallAt m n.state.1 n.state.2 = false) := by
  cases h with
  | root => exact Or.inl rfl
  | child hp hmem =>
    have := (Maze.mem_neighbors _ _ _ _).mp hmem
    exact Or.inr ⟨this.2.1, this.2.2.1, this.2.2.2⟩

/-- With the goal enclosed, any in-bounds cell one action away from the goal
is a wall. -/
theorem enclosedB_no_step {m : Maze} (henc : enclosedB m = true) {c : Nat × Nat} {a : Action}
    (hstep : stepB a c m.goal = true) (hc1 : c.1 < m.height) (hc2 : c.2 < m.width) :
    wallAt m c.1 c.2 = true := by
  simp only [stepB, Bool.and_eq_true, beq_iff_eq] at hstep
  rw [enclosedB, List.all_eq_true] at henc
  have ha : a ∈ [Action.up, .down, .left, .right] := by cases a <;> simp
  have := henc a ha
  simp only at this
  rw [if_pos ⟨by omega, by omega, by omega, by omega⟩] at this
  have h1 : ((m.goal.1 : Int) - (delta a).1).toNat = c.1 := by omega
  have h2 : ((m.goal.2 : Int) - (delta a).2).toNat = c.2 := by omega
  rw [h1, h2] at this
  exact this

/-! Characterization of `Maze.solve` in terms of the loop's result. -/

theorem add_empty (n : Node) : StackFrontier.add ⟨[]⟩ n = ⟨[n]⟩ := rfl

/-- A returning `solve` call is the write-back of a returning loop: either
the loop raised and only the counter and the explored set were written, or
it succeeded and the solution was written as well. -/
theorem solve_some {m m' : Maze} {e : Option SearchError} (h : m.solve = some (m', e)) :
    ∃ res, m.solveLoop (m.height * m.width + 1) ⟨[Node.mk m.start none none]⟩ [] 0 = some res ∧
      ((∃ err, res.2 = .error err ∧ e = some err ∧
          m' = { m with num_explored := res.1.1, explored := res.1.2 }) ∨
       (∃ sol, res.2 = .ok sol ∧ e = none ∧
          m' = { m with num_explored := res.1.1, explored := res.1.2,
                        solution := some sol })) := by
  unfold Maze.solve at h
  simp only [add_empty] at h
  cases hres : m.solveLoop (m.height * m.width + 1) ⟨[Node.mk m.start none none]⟩ [] 0 with
  | none =>
    rw [hres] at h
    exact Option.noConfusion h
  | some res =>
    rw [hres] at h
    obtain ⟨⟨ne', ex'⟩, out⟩ := res
    cases out with
    | error err =>
      simp only at h
      obtain ⟨h1, h2⟩ := Prod.mk.inj (Option.some.inj h)
      exact ⟨((ne', ex'), .error err), rfl, Or.inl ⟨err, rfl, h2.symm, h1.symm⟩⟩
    | ok sol =>
      simp only at h
      obtain ⟨h1, h2⟩ := Prod.mk.inj (Option.some.inj h)
      exact ⟨((ne', ex'), .ok sol), rfl, Or.inr ⟨sol, rfl, h2.symm, h1.symm⟩⟩

theorem frontier_foldl_add :
    ∀ (ns : List Node) (fr : StackFrontier),
      List.foldl StackFrontier.add fr ns = ⟨fr.frontier ++ ns⟩ := by
  intro ns
  induction ns with
  | nil => intro fr; cases fr; simp
  | cons n ns ih =>
    intro fr
    rw [List.foldl_cons, ih]
    simp [StackFrontier.add]

/-! The claims. -/

/-- Claim C3: for every grid and every state, `neighbors` returns exactly the
candidate moves up, down, left, right (deltas `(-1,0)`, `(1,0)`, `(0,-1)`,
`(0,1)`) whose targets are in `[0,height) × [0,width)` and not walls, in
that fixed order; `neighbors` is a pure function of the maze and the state,
so it has no side effects. -/
theorem claim_C3 (m : Maze) (st : Nat × Nat) :
    m.neighbors st = [Action.up, .down, .left, .right].filterMap (validTarget m st) ∧
    ∀ (a : Action) (s : Nat × Nat),
      (a, s) ∈ m.neighbors st ↔
        stepB a st s = true ∧ s.1 < m.height ∧ s.2 < m.width ∧ wallAt m s.1 s.2 = false :=
  ⟨Maze.neighbors_eq_filterMap m st, fun a s => Maze.mem_neighbors m st a s⟩

/-- Claim C6: after adding `A1 … An` to a fresh frontier with no intervening
removes, the stack frontier's `remove` returns `An` (the most recently
added node) and the queue frontier's `remove` returns `A1` (the earliest
added node still present). -/
theorem claim_C6 (ns : List Node) (h : ns ≠ []) :
    (List.foldl StackFrontier.add ⟨[]⟩ ns).remove = .ok (ns.getLast h, ⟨ns.dropLast⟩) ∧
    QueueFrontier.remove (List.foldl StackFrontier.add ⟨[]⟩ ns) = .ok (ns.head h, ⟨ns.tail⟩) := by
  rw [frontier_foldl_add]
  constructor
  · exact StackFrontier.remove_concat _ ns.dropLast (ns.getLast h)
      (by simp [List.dropLast_append_getLast h])
  · cases ns with
    | nil => exact absurd rfl h
    | cons x xs => rfl

theorem claim_C6_witness :
    (([Node.mk (0, 0) none none, Node.mk (1, 1) none none] : List Node) ≠ []) ∧
    ((List.foldl StackFrontier.add ⟨[]⟩
        [Node.mk (0, 0) none none, Node.mk (1, 1) none none]).remove
      = .ok (Node.mk (1, 1) none none, ⟨[Node.mk (0, 0) none none]⟩) ∧
     QueueFrontier.remove (List.foldl StackFrontier.add ⟨[]⟩
        [Node.mk (0, 0) none none, Node.mk (1, 1) none none])
      = .ok (Node.mk (0, 0) none none, ⟨[Node.mk (1, 1) none none]⟩)) :=
  ⟨by simp, claim_C6 [Node.mk (0, 0) none none, Node.mk (1, 1) none none] (by simp)⟩

/-- Claim C7: construction fails with a format error exactly when the source does
not contain exactly one `'A'` or exactly one `'B'`; the check happens in the
constructor, before any search can run. -/
theorem claim_C7 (cs : List Char) :
    (∃ e, mazeOfString cs = .error e) ↔ (cs.count 'A' ≠ 1 ∨ cs.count 'B' ≠ 1) := by
  unfold mazeOfString
  by_cases h1 : cs.count 'A' ≠ 1
  · rw [if_pos h1]
    exact ⟨fun _ => Or.inl h1, fun _ => ⟨.startCount, rfl⟩⟩
  · rw [if_neg h1]
    by_cases h2 : cs.count 'B' ≠ 1
    · rw [if_pos h2]
      exact ⟨fun _ => Or.inr h2, fun _ => ⟨.goalCount, rfl⟩⟩
    · rw [if_neg h2]
      constructor
      · rintro ⟨e, he⟩
        exact Except.noConfusion he
      · rintro (h | h)
        · exact absurd h h1
        · exact absurd h h2

/-- Claim C10: when `solve` raises (no solution), the stored `solution` field is
exactly what it was before the call: `None` if the maze was never solved,
or the solution of the most recent successful call. -/
theorem claim_C10 (m m' : Maze) (e : SearchError) (h : m.solve = some (m', some e)) :
    m'.solution = m.solution := by
  obtain ⟨res, _, hcase⟩ := solve_some h
  rcases hcase with ⟨err, _, _, rfl⟩ | ⟨sol, _, hnone, _⟩
  · rfl
  · exact Option.noConfusion hnone

/-- Claim C4: for every maze whose start cell is in bounds, `solve` terminates:
the loop runs out of neither fuel nor progress, because every state enters
the frontier at most once and is expanded at most once, so
`height * width + 1` iterations always suffice. -/
theorem claim_C4 (m : Maze) (h1 : m.start.1 < m.height) (h2 : m.start.2 < m.width) :
    (m.solve).isSome := by
  have htotal := solveLoop_total m (m.height * m.width + 1)
    ⟨[Node.mk m.start none none]⟩ [] 0 (invCore_init m)
    (by
      intro n hn
      rw [List.mem_singleton] at hn
      subst hn
      exact ⟨h1, h2⟩)
    (by simp) (by simp)
  obtain ⟨res, hres⟩ := Option.isSome_iff_exists.mp htotal
  unfold Maze.solve
  simp only [add_empty]
  rw [hres]
  obtain ⟨⟨ne', ex'⟩, out⟩ := res
  cases out <;> rfl

theorem claim_C4_witness :
    ((⟨1, 2, [[false, false]], (0, 0), (0, 1), none, 0, []⟩ : Maze).start.1
        < (⟨1, 2, [[false, false]], (0, 0), (0, 1), none, 0, []⟩ : Maze).height) ∧
    ((⟨1, 2, [[false, false]], (0, 0), (0, 1), none, 0, []⟩ : Maze).start.2
        < (⟨1, 2, [[false, false]], (0, 0), (0, 1), none, 0, []⟩ : Maze).width) ∧
    ((⟨1, 2, [[false, false]], (0, 0), (0, 1), none, 0, []⟩ : Maze).solve).isSome :=
  ⟨by decide, by decide,
    claim_C4 ⟨1, 2, [[false, false]], (0, 0), (0, 1), none, 0, []⟩ (by decide) (by decide)⟩

/-- Claim C1: on a maze whose goal is fully enclosed (every cell an action-step
away from the goal is out of bounds or a wall), `solve` terminates with the
`"no solution"` outcome — the empty frontier is detected by the loop itself,
so the frontier's own `"empty frontier"` fault is never raised and the
caller can tell UNSOLVABLE apart from a genuine fault. -/
theorem claim_C1 (m : Maze) (h1 : m.start.1 < m.height) (h2 : m.start.2 < m.width)
    (hsw : wallAt m m.start.1 m.start.2 = false) (hne : m.start ≠ m.goal)
    (henc : enclosedB m = true) :
    ∃ m', m.solve = some (m', some SearchError.noSolution) := by
  have htotal := solveLoop_total m (m.height * m.width + 1)
    ⟨[Node.mk m.start none none]⟩ [] 0 (invCore_init m)
    (by
      intro n hn
      rw [List.mem_singleton] at hn
      subst hn
      exact ⟨h1, h2⟩)
    (by simp) (by simp)
  obtain ⟨res, hres⟩ := Option.isSome_iff_exists.mp htotal
  obtain ⟨⟨ne', ex'⟩, out⟩ := res
  have hsound := solveLoop_sound m _ _ _ _ _ (invCore_init m) hres
  have hok : ∀ sol, out ≠ .ok sol := by
    intro sol hsol
    obtain ⟨-, n, hgood, hstate, -⟩ := hsound.2.2 sol hsol
    cases hgood with
    | root => exact hne hstate
    | @child p a s hp hmem =>
      have hstep : stepB a p.state s = true := ((Maze.mem_neighbors m p.state a s).mp hmem).1
      rw [show (Node.mk s (some p) (some a)).state = s from rfl] at hstate
      subst hstate
      rcases goodNode_state hp with hps | ⟨hb1, hb2, hw'⟩
      · rw [hps] at hstep
        have hthis := enclosedB_no_step henc hstep h1 h2
        rw [hsw] at hthis
        exact Bool.noConfusion hthis
      · have := enclosedB_no_step henc hstep hb1 hb2
        rw [hw'] at this
        exact Bool.noConfusion this
  cases out with
  | ok sol => exact absurd rfl (hok sol)
  | error err =>
    have herr : err = .noSolution := hsound.2.1 err rfl
    subst herr
    refine ⟨{ m with num_explored := ne', explored := ex' }, ?_⟩
    unfold Maze.solve
    simp only [add_empty]
    rw [hres]

/-- Claim C2: when the start is one action away from the goal (which is in bounds
and not a wall, so the trivial path exists), `solve` succeeds with a
solution of exactly one action, and that action's delta carries the start
onto the goal. -/
theorem claim_C2 (m : Maze) (a : Action)
    (hstep : stepB a m.start m.goal = true)
    (hg1 : m.goal.1 < m.height) (hg2 : m.goal.2 < m.width)
    (hgw : wallAt m m.goal.1 m.goal.2 = false)
    (h1 : m.start.1 < m.height) (h2 : m.start.2 < m.width) :
    ∃ m', m.solve = some (m', none) ∧ m'.solution = some ([some a], [m.goal])
      ∧ stepB a m.start m.goal = true := by
  have hne : m.start ≠ m.goal := stepB_ne hstep
  have hset : setInsert [] m.start = [m.start] := by simp [setInsert]
  have hstep1 : m.solveLoop (m.height * m.width + 1) ⟨[Node.mk m.start none none]⟩ [] 0
      = m.solveLoop (m.height * m.width)
          (addChildren (Node.mk m.start none none) [m.start] (m.neighbors m.start) ⟨[]⟩)
          [m.start] 1 := by
    have hc := Maze.solveLoop_cons m (m.height * m.width) [] (Node.mk m.start none none) [] 0
    simp only [List.nil_append] at hc
    rw [hc, if_neg (by simpa [Node.state_mk] using hne)]
    simp only [Node.state_mk, hset]
  have hmemN : (a, m.goal) ∈ m.neighbors m.start :=
    (Maze.mem_neighbors m m.start a m.goal).mpr ⟨hstep, hg1, hg2, hgw⟩
  have hgnode : (Node.mk m.goal (some (Node.mk m.start none none)) (some a))
      ∈ (addChildren (Node.mk m.start none none) [m.start]
          (m.neighbors m.start) ⟨[]⟩).frontier :=
    addChildren_mem_target _ _ _ _ a m.goal (Maze.neighbors_states_nodup m m.start) hmemN
      (by
        rw [List.mem_singleton]
        exact fun hEq => hne hEq.symm)
      rfl
  have hInv1 : InvCore m
      (addChildren (Node.mk m.start none none) [m.start] (m.neighbors m.start) ⟨[]⟩)
      [m.start] 1 := by
    have hstepInv := @inv_step m [] (Node.mk m.start none none) [] 0
      (invCore_init m) (by simpa [Node.state_mk] using hne)
    simpa [Node.state_mk, hset] using hstepInv
  have hfrB : ∀ n ∈ (addChildren (Node.mk m.start none none) [m.start]
      (m.neighbors m.start) ⟨[]⟩).frontier,
      n.state.1 < m.height ∧ n.state.2 < m.width := by
    intro n hn
    rcases addChildren_mem _ _ _ _ _ hn with hold | ⟨a', s', hmem', _, rfl⟩
    · exact absurd hold (List.not_mem_nil _)
    · have := (Maze.mem_neighbors m _ a' s').mp hmem'
      exact ⟨this.2.1, this.2.2.1⟩
  have htot := solveLoop_total m (m.height * m.width) _ [m.start] 1 hInv1 hfrB
    (by
      intro s hs
      rw [List.mem_singleton] at hs
      subst hs
      exact ⟨h1, h2⟩)
    (by simp)
  obtain ⟨res, hres⟩ := Option.isSome_iff_exists.mp htot
  obtain ⟨⟨ne', ex'⟩, out⟩ := res
  have hout := solveLoop_gnode m a (m.height * m.width) _ [m.start] 1 _ hInv1 hgnode hres
  simp only at hout
  refine ⟨{ m with
      num_explored := ne'
      explored := ex'
      solution := some ([some a], [m.goal]) }, ?_, rfl, hstep⟩
  unfold Maze.solve
  simp only [add_empty]
  rw [hstep1, hres, hout]

/-- Claim C5: every solution of a successful `solve` pairs equally many actions
and cells, is a walk from the start (each cell is the previous cell, the
start at first, shifted by the delta of the action paired with it), and its
last cell is the goal. -/
theorem claim_C5 (m m' : Maze) (as : List (Option Action)) (cs : List (Nat × Nat))
    (hsolve : m.solve = some (m', none)) (hsol : m'.solution = some (as, cs)) :
    as.length = cs.length ∧ walkOK m.start (as.zip cs) = true ∧
      cs.getLastD m.start = m.goal := by
  obtain ⟨res, hres, hcase⟩ := solve_some hsolve
  rcases hcase with ⟨err, _, habs, _⟩ | ⟨sol, hout, _, rfl⟩
  · exact Option.noConfusion habs
  · have hsound := solveLoop_sound m _ _ _ _ res (invCore_init m) hres
    obtain ⟨hcount, n, hgood, hstate, hsoleq⟩ := hsound.2.2 sol hout
    have hsol' : sol = (as, cs) := Option.some.inj hsol
    subst hsol'
    obtain ⟨has, hcs⟩ := Prod.mk.inj hsoleq
    subst has
    subst hcs
    obtain ⟨hlen, hwalk, hlast⟩ := backtrack_walk hgood
    exact ⟨by simp [hlen], hwalk, by rw [hlast, hstate]⟩

/-- Claim C9: the goal state is never inserted into the explored set (the loop
returns on popping the goal before marking it), and since no two expanded
nodes share a state, a successful `solve` leaves
`num_explored = |explored| + 1`. -/
theorem claim_C9 (m m' : Maze) (e : Option SearchError) (h : m.solve = some (m', e)) :
    m.goal ∉ m'.explored ∧ (e = none → m'.num_explored = m'.explored.length + 1) := by
  obtain ⟨res, hres, hcase⟩ := solve_some h
  have hsound := solveLoop_sound m _ _ _ _ res (invCore_init m) hres
  rcases hcase with ⟨err, hout, he, rfl⟩ | ⟨sol, hout, he, rfl⟩
  · refine ⟨hsound.1, fun hnone => ?_⟩
    rw [he] at hnone
    exact Option.noConfusion hnone
  · exact ⟨hsound.1, fun _ => (hsound.2.2 sol hout).1⟩

/-- Claim C8: after a successful construction the wall matrix is rectangular with
one row per input line and one column per character of the longest line —
the width is the folded maximum of the line lengths, attained by some line
and bounding every line; cells past the end of a shorter line are open
floor, not walls (the out-of-bounds read is policy, not an error); and the
start and goal cells are never walls. -/
theorem claim_C8 (cs : List Char) (m : Maze) (h : mazeOfString cs = .ok m) :
    m.height = (splitlines cs).length ∧
    m.width = (splitlines cs).foldl (fun acc line => max acc line.length) 0 ∧
    (∃ line ∈ splitlines cs, line.length = m.width) ∧
    m.walls.length = m.height ∧
    (∀ row ∈ m.walls, row.length = m.width) ∧
    (∀ line ∈ splitlines cs, line.length ≤ m.width) ∧
    (∀ i j, i < m.height → j < m.width → ((splitlines cs).getD i []).length ≤ j →
      wallAt m i j = false) ∧
    wallAt m m.start.1 m.start.2 = false ∧
    wallAt m m.goal.1 m.goal.2 = false := by
  obtain ⟨hA, hB, hh, hw, hwalls, hstart, hgoal, -, -, -⟩ := mazeOfString_ok h
  refine ⟨hh, hw, ?_, ?_, ?_, ?_, ?_, ?_, ?_⟩
  · obtain ⟨l0, hl0, hAl0⟩ := (@mem_splitlines 'A' (by decide) cs).mpr
      (List.count_pos_iff.mp (by omega))
    rcases foldl_max_attained (splitlines cs) 0 with hzero | ⟨l, hl, hEq⟩
    · exfalso
      have hle : l0.length = 0 := by
        have := length_le_foldl_max (splitlines cs) 0 l0 hl0
        omega
      rw [List.length_eq_zero] at hle
      subst hle
      exact List.not_mem_nil 'A' hAl0
    · exact ⟨l, hl, by rw [hw, hEq]⟩
  · rw [hwalls]
    simp
  · intro row hrow
    rw [hwalls] at hrow
    obtain ⟨i, hi, rfl⟩ := List.mem_map.mp hrow
    simp
  · intro line hline
    rw [hw]
    exact length_le_foldl_max _ 0 line hline
  · intro i j hi hj hlen
    rw [wallAt_mazeOfString h i j hi hj]
    have hch : charAt (splitlines cs) i j = ' ' := by
      rw [charAt]
      exact List.getD_eq_default _ _ hlen
    rw [hch]
    rfl
  · obtain ⟨p, hfind, hp1, hp2, hpch⟩ := @find_marker cs 'A' (by decide) (by omega)
    have hstart' : m.start = p := by
      rw [hstart, hh, hw, hfind]
      rfl
    have hb1 : p.1 < m.height := by rw [hh]; exact hp1
    have hb2 : p.2 < m.width := by rw [hw]; exact hp2
    rw [hstart', wallAt_mazeOfString h p.1 p.2 hb1 hb2, hpch]
    rfl
  · obtain ⟨p, hfind, hp1, hp2, hpch⟩ := @find_marker cs 'B' (by decide) (by omega)
    have hgoal' : m.goal = p := by
      rw [hgoal, hh, hw, hfind]
      rfl
    have hb1 : p.1 < m.height := by rw [hh]; exact hp1
    have hb2 : p.2 < m.width := by rw [hw]; exact hp2
    rw [hgoal', wallAt_mazeOfString h p.1 p.2 hb1 hb2, hpch]
    rfl

theorem claim_C8_witness :
    mazeOfString csExample = .ok mzExample ∧
    (mzExample.height = (splitlines csExample).length ∧
     mzExample.width = (splitlines csExample).foldl (fun acc line => max acc line.length) 0 ∧
     (∃ line ∈ splitlines csExample, line.length = mzExample.width) ∧
     mzExample.walls.length = mzExample.height ∧
     (∀ row ∈ mzExample.walls, row.length = mzExample.width) ∧
     (∀ line ∈ splitlines csExample, line.length ≤ mzExample.width) ∧
     (∀ i j, i < mzExample.height → j < mzExample.width →
        ((splitlines csExample).getD i []).length ≤ j → wallAt mzExample i j = false) ∧
     wallAt mzExample mzExample.start.1 mzExample.start.2 = false ∧
     wallAt mzExample mzExample.goal.1 mzExample.goal.2 = false) :=
  ⟨by decide, claim_C8 csExample mzExample (by decide)⟩

theorem claim_C1_witness :
    (mzBlocked.start.1 < mzBlocked.height ∧ mzBlocked.start.2 < mzBlocked.width ∧
     wallAt mzBlocked mzBlocked.start.1 mzBlocked.start.2 = false ∧
     mzBlocked.start ≠ mzBlocked.goal ∧ enclosedB mzBlocked = true) ∧
    (∃ m', mzBlocked.solve = some (m', some SearchError.noSolution)) :=
  ⟨⟨by decide, by decide, by decide, by decide, by decide⟩,
   claim_C1 mzBlocked (by decide) (by decide) (by decide) (by decide) (by decide)⟩

theorem claim_C2_witness :
    (stepB .right mzAB.start mzAB.goal = true ∧
     mzAB.goal.1 < mzAB.height ∧ mzAB.goal.2 < mzAB.width ∧
     wallAt mzAB mzAB.goal.1 mzAB.goal.2 = false ∧
     mzAB.start.1 < mzAB.height ∧ mzAB.start.2 < mzAB.width) ∧
    (∃ m', mzAB.solve = some (m', none) ∧
      m'.solution = some ([some .right], [mzAB.goal]) ∧
      stepB .right mzAB.start mzAB.goal = true) :=
  ⟨⟨by decide, by decide, by decide, by decide, by decide, by decide⟩,
   claim_C2 mzAB .right (by decide) (by decide) (by decide) (by decide) (by decide) (by decide)⟩

theorem claim_C5_witness :
    (mzAB.solve = some (mzABSolved, none) ∧
     mzABSolved.solution = some ([some .right], [(0, 1)])) ∧
    ([some Action.right].length = [((0 : Nat), (1 : Nat))].length ∧
     walkOK mzAB.start ([some Action.right].zip [((0 : Nat), (1 : Nat))]) = true ∧
     [((0 : Nat), (1 : Nat))].getLastD mzAB.start = mzAB.goal) :=
  ⟨⟨by decide, by decide⟩,
   claim_C5 mzAB mzABSolved [some .right] [(0, 1)] (by decide) (by decide)⟩

theorem claim_C9_witness :
    mzAB.solve = some (mzABSolved, none) ∧
    (mzAB.goal ∉ mzABSolved.explored ∧
     ((none : Option SearchError) = none →
        mzABSolved.num_explored = mzABSolved.explored.length + 1)) :=
  ⟨by decide, claim_C9 mzAB mzABSolved none (by decide)⟩

theorem claim_C10_witness :
    mzBlocked.solve = some (mzBlockedAfter, some SearchError.noSolution) ∧
    mzBlockedAfter.solution = mzBlocked.solution :=
  ⟨by decide, claim_C10 mzBlocked mzBlockedAfter .noSolution (by decide)⟩

end Laberinto
